import Mathlib

/-!
Shallow embedding of `src/database.py` (class `EmbeddingDatabase`): the
vector record store, its mutation operations (`add_pdf_embeddings`,
`remove_pdf_embeddings`, `clear_database`), the load-from-disk behaviour
(`_load_database`) and the cosine-similarity search pipeline
(`search_similar_chunks`).

Modelling conventions:
- Python float values stored in the database are idealised as exact
  rationals (`ℚ`); similarities computed by
  `sklearn.metrics.pairwise.cosine_similarity` are idealised as reals,
  since they involve square roots.
- Python lists are Lean lists; a metadata dict is a record with the fixed
  keys the code writes (`pdf_name`, `chunk_id`, `text`, `embedding_index`)
  plus an association list for the passthrough extra metadata merged in by
  `meta.update(item['metadata'])` (the callers pass keys, such as
  `page_num`, that are disjoint from the core keys).
- The numpy cache `_embeddings_array` is `None` exactly when
  `self.embeddings` is empty (it is rebuilt by `_update_numpy_cache` after
  every load and save), so the guard `if self._embeddings_array is None`
  is embedded as a test that the embeddings list is empty.
- Persistence is modelled by state passing: every mutating method saves
  unconditionally, so the persisted state is the in-memory state.
-/

/-- One metadata dict of `self.metadata`, as written by
`add_pdf_embeddings`: the core keys plus the merged-in extra metadata. -/
structure MetaRecord where
  pdf_name : String
  chunk_id : Nat
  text : String
  embedding_index : Nat
  extra : List (String × Nat)
deriving DecidableEq, Repr

/-- One element of the `embeddings_data` argument of `add_pdf_embeddings`:
a dict with keys `text`, `embedding` and (optionally) `metadata`; an
absent `metadata` key is the empty association list. -/
structure ChunkData where
  text : String
  embedding : List ℚ
  extra : List (String × Nat)
deriving DecidableEq, Repr

/-- The in-memory state of `EmbeddingDatabase`: the two parallel lists
`self.embeddings` and `self.metadata`. -/
structure EmbeddingDatabase where
  embeddings : List (List ℚ)
  metadata : List MetaRecord
deriving DecidableEq, Repr

/-- The state of a freshly initialised store with no persisted data. -/
def emptyDB : EmbeddingDatabase := { embeddings := [], metadata := [] }

/-- `clear_database`: resets both lists to empty (and saves). -/
def clear_database (_db : EmbeddingDatabase) : EmbeddingDatabase :=
  { embeddings := [], metadata := [] }

/-- `_load_database`: each of the two files is loaded independently when
present (`if os.path.exists(...)`); an absent file leaves the
corresponding list empty. -/
def load_database (embeddingsFilePresent : Bool) (embeddingsFileData : List (List ℚ))
    (metadataFilePresent : Bool) (metadataFileData : List MetaRecord) : EmbeddingDatabase :=
  { embeddings := if embeddingsFilePresent then embeddingsFileData else [],
    metadata := if metadataFilePresent then metadataFileData else [] }

/-- The reindexing loop of `remove_pdf_embeddings`:
`for i, meta in enumerate(self.metadata): meta['embedding_index'] = i`,
with the enumeration counter made explicit. -/
def reindexFrom : Nat → List MetaRecord → List MetaRecord
  | _, [] => []
  | i, m :: ms => { m with embedding_index := i } :: reindexFrom (i + 1) ms

/-- `remove_pdf_embeddings`: deletes, from both parallel lists, every
position whose metadata has the given `pdf_name` (the source deletes the
collected indices from highest to lowest, which keeps exactly the aligned
pairs whose name differs), then rewrites every remaining
`embedding_index` to its new position, and saves. -/
def remove_pdf_embeddings (db : EmbeddingDatabase) (pdf_name : String) : EmbeddingDatabase :=
  let kept := (db.embeddings.zip db.metadata).filter (fun p => p.2.pdf_name ≠ pdf_name)
  { embeddings := kept.map Prod.fst,
    metadata := reindexFrom 0 (kept.map Prod.snd) }

/-- The append loop of `add_pdf_embeddings`:
`for i, item in enumerate(embeddings_data)`, appending the embedding and
its metadata dict; `embedding_index` is `len(self.embeddings) - 1` taken
after the append, i.e. the length before it. -/
def addChunks (pdf_name : String) : Nat → List ChunkData → EmbeddingDatabase → EmbeddingDatabase
  | _, [], db => db
  | i, c :: cs, db =>
      addChunks pdf_name (i + 1) cs
        { embeddings := db.embeddings ++ [c.embedding],
          metadata := db.metadata ++
            [{ pdf_name := pdf_name, chunk_id := i, text := c.text,
               embedding_index := db.embeddings.length, extra := c.extra }] }

/-- `add_pdf_embeddings`: first calls `remove_pdf_embeddings` for the same
name, then appends one record per chunk with `chunk_id` equal to the
enumeration index, and saves. -/
def add_pdf_embeddings (db : EmbeddingDatabase) (pdf_name : String)
    (embeddings_data : List ChunkData) : EmbeddingDatabase :=
  addChunks pdf_name 0 embeddings_data (remove_pdf_embeddings db pdf_name)

/-- Dot product of two float vectors, exact over `ℚ` (numpy truncates the
pair at the shorter length only in the degenerate case; the store always
compares equal-length vectors). -/
def dot : List ℚ → List ℚ → ℚ
  | x :: xs, y :: ys => x * y + dot xs ys
  | _, _ => 0

/-- Squared euclidean norm of a vector. -/
def normSq (a : List ℚ) : ℚ := dot a a

/-- Cosine similarity as computed by `sklearn.cosine_similarity`:
`dot(a,b) / (norm(a) * norm(b))`. sklearn normalises each row, keeping
zero-norm rows as zero rows, so a zero-norm side yields similarity `0`;
in this embedding the numerator is then `0` (proved below), and real
division by zero is `0`, which agrees. -/
noncomputable def cosineSim (a b : List ℚ) : ℝ :=
  (dot a b : ℝ) / (Real.sqrt (normSq a) * Real.sqrt (normSq b))

/-- One element of the `results` list built by `search_similar_chunks`:
the dict with keys `metadata`, `similarity` and `text`. -/
structure SearchResult where
  metadata : MetaRecord
  similarity : ℝ
  text : String

/-- The comparison `search_similar_chunks` sorts by:
`results.sort(key=lambda x: x['similarity'], reverse=True)` orders `a`
before `b` exactly when `b`'s similarity is at most `a`'s. -/
def simDescRel (a b : SearchResult) : Prop := b.similarity ≤ a.similarity

instance : IsTotal SearchResult simDescRel :=
  ⟨fun a b => le_total b.similarity a.similarity⟩

instance : IsTrans SearchResult simDescRel :=
  ⟨fun _ _ _ h1 h2 => le_trans h2 h1⟩

noncomputable instance : DecidableRel simDescRel :=
  fun a b => inferInstanceAs (Decidable (b.similarity ≤ a.similarity))

/-- Ascending order of store position (`embedding_index`) between two
search results. -/
def idxLT (a b : SearchResult) : Prop :=
  a.metadata.embedding_index < b.metadata.embedding_index

/-- The ranking order the spec requires of the result list: strictly
descending similarity, with ties in ascending `slot_index`. -/
def tieRel (a b : SearchResult) : Prop :=
  b.similarity < a.similarity ∨
    (a.similarity = b.similarity ∧ a.metadata.embedding_index < b.metadata.embedding_index)

/-- The threshold filter of the list comprehension in
`search_similar_chunks`: keeps results with `similarity >= threshold`. -/
noncomputable def filterGE (threshold : ℝ) : List SearchResult → List SearchResult
  | [] => []
  | r :: rs => if threshold ≤ r.similarity then r :: filterGE threshold rs
               else filterGE threshold rs

/-- The unfiltered comprehension body: one `SearchResult` per stored
vector, pairing `similarities[i]` with `self.metadata[i]`. -/
noncomputable def candidates (query : List ℚ) (db : EmbeddingDatabase) : List SearchResult :=
  (db.embeddings.zip db.metadata).map fun p =>
    { metadata := p.2, similarity := cosineSim query p.1, text := p.2.text }

/-- `search_similar_chunks(query_embedding, top_k, threshold)`: empty
result when the numpy cache is `None` (empty store); otherwise cosine
similarities against every stored vector, threshold filter, stable
descending sort by similarity (Python's `list.sort` is stable, and
`reverse=True` preserves the original relative order of equal keys;
`List.insertionSort` with the weak descending comparison produces the
same stably-sorted list), and truncation to the first `top_k`. -/
noncomputable def search_similar_chunks (db : EmbeddingDatabase) (query_embedding : List ℚ)
    (top_k : Nat) (threshold : ℝ) : List SearchResult :=
  if db.embeddings.isEmpty then []
  else (List.insertionSort simDescRel (filterGE threshold (candidates query_embedding db))).take top_k

/-- The alignment invariant of the store: the two parallel lists have
equal length and every metadata entry's `embedding_index` is its actual
position. -/
def StoreInv (db : EmbeddingDatabase) : Prop :=
  db.embeddings.length = db.metadata.length ∧
    ∀ i (h : i < db.metadata.length), (db.metadata[i]).embedding_index = i

instance (db : EmbeddingDatabase) : Decidable (StoreInv db) :=
  inferInstanceAs (Decidable (db.embeddings.length = db.metadata.length ∧
    ∀ i (h : i < db.metadata.length), (db.metadata[i]).embedding_index = i))

/-- The identity of a live record at document granularity. -/
def docKey (m : MetaRecord) : String × Nat := (m.pdf_name, m.chunk_id)

/-- No two live records share the same `(pdf_name, chunk_id)` pair. -/
def DupFree (db : EmbeddingDatabase) : Prop :=
  (db.metadata.map docKey).Nodup

instance (db : EmbeddingDatabase) : Decidable (DupFree db) :=
  inferInstanceAs (Decidable (db.metadata.map docKey).Nodup)

/-- One public mutation of the store. -/
inductive DbOp where
  | add (pdf_name : String) (chunks : List ChunkData)
  | remove (pdf_name : String)
  | clear

/-- Interpretation of one mutation on a store state. -/
def applyOp (db : EmbeddingDatabase) : DbOp → EmbeddingDatabase
  | DbOp.add n cs => add_pdf_embeddings db n cs
  | DbOp.remove n => remove_pdf_embeddings db n
  | DbOp.clear => clear_database db

/-- The metadata records `add_pdf_embeddings` appends for a chunk list,
starting at chunk id `i` and store position `e`. -/
def metasFrom (pdf_name : String) : Nat → Nat → List ChunkData → List MetaRecord
  | _, _, [] => []
  | i, e, c :: cs =>
      { pdf_name := pdf_name, chunk_id := i, text := c.text,
        embedding_index := e, extra := c.extra } :: metasFrom pdf_name (i + 1) (e + 1) cs

/-- A metadata record without its `embedding_index` field: what removal
must preserve about the surviving records. -/
def coreOf (m : MetaRecord) : String × Nat × String × List (String × Nat) :=
  (m.pdf_name, m.chunk_id, m.text, m.extra)

/-- Concrete store with one record, used to instantiate search claims. -/
def dbSingle : EmbeddingDatabase :=
  { embeddings := [[1, 0]], metadata := [⟨"A", 0, "a0", 0, []⟩] }

/-- The result record `search_similar_chunks` returns for `dbSingle`
queried with its own stored vector. -/
noncomputable def resA : SearchResult :=
  { metadata := ⟨"A", 0, "a0", 0, []⟩, similarity := 1, text := "a0" }

/-- Concrete store with two records, used to instantiate search claims. -/
def dbPair : EmbeddingDatabase :=
  { embeddings := [[1, 0], [0, 1]],
    metadata := [⟨"A", 0, "a0", 0, []⟩, ⟨"A", 1, "a1", 1, []⟩] }

/-- Concrete store with document A (3 chunks) and document B (2 chunks),
the removal example of the spec. -/
def dbAB : EmbeddingDatabase :=
  { embeddings := [[1, 0], [0, 1], [1, 1], [2, 0], [0, 2]],
    metadata := [⟨"A", 0, "a0", 0, []⟩, ⟨"A", 1, "a1", 1, []⟩, ⟨"A", 2, "a2", 2, []⟩,
                 ⟨"B", 0, "b0", 3, []⟩, ⟨"B", 1, "b1", 4, []⟩] }

/-- C10: adding a document with an empty chunk list is exactly removal of
that document: `add_pdf_embeddings` first calls `remove_pdf_embeddings`
and then appends nothing. -/
theorem add_nil_eq_remove (db : EmbeddingDatabase) (pdf_name : String) :
    add_pdf_embeddings db pdf_name [] = remove_pdf_embeddings db pdf_name := rfl

/-- C7: searching a freshly cleared store, or the empty store, returns
the empty list (the `_embeddings_array is None` guard) and no error. -/
theorem search_empty_store (db : EmbeddingDatabase) (q : List ℚ) (k : Nat) (t : ℝ) :
    search_similar_chunks (clear_database db) q k t = [] ∧
    search_similar_chunks emptyDB q k t = [] :=
  ⟨rfl, rfl⟩

/-- C5: the code has no dimensionality check: adding a 3-dimensional
vector to a store whose established dimensionality is 2 appends it
(no `DimensionMismatch`, no rollback), leaving vectors of lengths 2 and 3
stored side by side. -/
theorem add_dimension_mismatch_unchecked :
    (add_pdf_embeddings (add_pdf_embeddings emptyDB "A" [⟨"a0", [1, 0], []⟩]) "B"
        [⟨"b0", [1, 2, 3], []⟩]).embeddings.map List.length = [2, 3] := by
  decide

/-- C8: `_load_database` loads each file independently, so a location
with only the embeddings file present yields a partially loaded,
misaligned store, not an empty one. -/
theorem load_partial_files_not_empty :
    load_database true [[1]] false [] ≠ emptyDB ∧
    (load_database true [[1]] false []).embeddings.length ≠
      (load_database true [[1]] false []).metadata.length := by
  decide

theorem reindexFrom_length : ∀ (j : Nat) (ms : List MetaRecord),
    (reindexFrom j ms).length = ms.length
  | _, [] => rfl
  | j, _ :: ms => by simp [reindexFrom, reindexFrom_length (j + 1) ms]

theorem reindexFrom_getElem (ms : List MetaRecord) :
    ∀ (j i : Nat) (h : i < (reindexFrom j ms).length),
      ((reindexFrom j ms)[i]).embedding_index = j + i := by
  induction ms with
  | nil => intro j i h; simp [reindexFrom] at h
  | cons m ms ih =>
    intro j i h
    cases i with
    | zero => simp [reindexFrom]
    | succ i =>
      have h' : i < (reindexFrom (j + 1) ms).length := by
        simp only [reindexFrom, List.length_cons] at h; omega
      simp only [reindexFrom, List.getElem_cons_succ]
      rw [ih (j + 1) i h']
      omega

theorem storeInv_remove (db : EmbeddingDatabase) (name : String) :
    StoreInv (remove_pdf_embeddings db name) := by
  constructor
  · simp [remove_pdf_embeddings, reindexFrom_length]
  · intro i h
    simp only [remove_pdf_embeddings] at h ⊢
    have h2 := reindexFrom_getElem
      (((db.embeddings.zip db.metadata).filter
        (fun p => p.2.pdf_name ≠ name)).map Prod.snd) 0 i h
    rw [h2]
    omega

theorem storeInv_append (db : EmbeddingDatabase) (v : List ℚ) (m : MetaRecord)
    (h : StoreInv db) (hm : m.embedding_index = db.embeddings.length) :
    StoreInv { embeddings := db.embeddings ++ [v], metadata := db.metadata ++ [m] } := by
  constructor
  · simp [h.1]
  · intro k hk
    show ((db.metadata ++ [m])[k]).embedding_index = k
    have hk' : k < db.metadata.length + 1 := by
      simpa using hk
    by_cases hlt : k < db.metadata.length
    · rw [List.getElem_append_left hlt]
      exact h.2 k hlt
    · have hke : k = db.metadata.length := by omega
      subst hke
      rw [List.getElem_append_right (Nat.le_refl _)]
      simpa using hm.trans h.1

theorem storeInv_addChunks (name : String) :
    ∀ (cs : List ChunkData) (i : Nat) (db : EmbeddingDatabase),
      StoreInv db → StoreInv (addChunks name i cs db)
  | [], _, _, h => h
  | c :: cs, i, db, h =>
    storeInv_addChunks name cs (i + 1) _ (storeInv_append db c.embedding _ h rfl)

theorem storeInv_add (db : EmbeddingDatabase) (name : String) (cs : List ChunkData) :
    StoreInv (add_pdf_embeddings db name cs) :=
  storeInv_addChunks name cs 0 _ (storeInv_remove db name)

theorem storeInv_empty : StoreInv emptyDB :=
  ⟨rfl, fun i h => absurd (show i < 0 from h) (Nat.not_lt_zero i)⟩

theorem storeInv_applyOp (db : EmbeddingDatabase) (op : DbOp) :
    StoreInv (applyOp db op) := by
  cases op with
  | add n cs => exact storeInv_add db n cs
  | remove n => exact storeInv_remove db n
  | clear => exact ⟨rfl, fun i h => absurd (show i < 0 from h) (Nat.not_lt_zero i)⟩

/-- C3: starting from the empty store, after any sequence of add, remove
and clear operations the embeddings and metadata lists have equal length
and every metadata entry's `embedding_index` equals its position. -/
theorem storeInv_of_ops (ops : List DbOp) :
    StoreInv (ops.foldl applyOp emptyDB) := by
  have general : ∀ (l : List DbOp) (db : EmbeddingDatabase),
      StoreInv db → StoreInv (l.foldl applyOp db) := by
    intro l
    induction l with
    | nil => exact fun db h => h
    | cons op l ih => exact fun db _ => ih (applyOp db op) (storeInv_applyOp db op)
  exact general ops emptyDB storeInv_empty


theorem coreOf_reindexFrom : ∀ (j : Nat) (ms : List MetaRecord),
    (reindexFrom j ms).map coreOf = ms.map coreOf
  | _, [] => rfl
  | j, m :: ms => by simp [reindexFrom, coreOf, coreOf_reindexFrom (j + 1) ms]

theorem docKey_reindexFrom : ∀ (j : Nat) (ms : List MetaRecord),
    (reindexFrom j ms).map docKey = ms.map docKey
  | _, [] => rfl
  | j, m :: ms => by simp [reindexFrom, docKey, docKey_reindexFrom (j + 1) ms]

theorem reindexFrom_eq_self : ∀ (ms : List MetaRecord) (j : Nat),
    (∀ i (h : i < ms.length), (ms[i]).embedding_index = j + i) → reindexFrom j ms = ms
  | [], _, _ => rfl
  | m :: ms, j, h => by
    have h0 : m.embedding_index = j := by simpa using h 0 (by simp)
    have ht : ∀ i (hi : i < ms.length), (ms[i]).embedding_index = (j + 1) + i := by
      intro i hi
      have h1 := h (i + 1) (by simpa using Nat.succ_lt_succ hi)
      simp only [List.getElem_cons_succ] at h1
      omega
    have hm : ({ m with embedding_index := j } : MetaRecord) = m := by
      cases m
      cases h0
      rfl
    simp only [reindexFrom]
    rw [reindexFrom_eq_self ms (j + 1) ht, hm]

theorem kept_map_snd (name : String) :
    ∀ (as : List (List ℚ)) (ms : List MetaRecord), as.length = ms.length →
      ((as.zip ms).filter (fun p => p.2.pdf_name ≠ name)).map Prod.snd
        = ms.filter (fun m => m.pdf_name ≠ name)
  | [], [], _ => rfl
  | [], _ :: _, h => by simp at h
  | _ :: _, [], h => by simp at h
  | a :: as, m :: ms, h => by
    have h' : as.length = ms.length := by simpa using h
    have ih := kept_map_snd name as ms h'
    by_cases hm : m.pdf_name = name
    · simpa [List.zip_cons_cons, List.filter_cons, hm] using ih
    · simpa [List.zip_cons_cons, List.filter_cons, hm] using ih

theorem map_snd_zip_sublist : ∀ (as : List (List ℚ)) (ms : List MetaRecord),
    List.Sublist ((as.zip ms).map Prod.snd) ms
  | [], ms => by simp
  | _ :: _, [] => by simp
  | a :: as, m :: ms => by
    simpa [List.zip_cons_cons] using (map_snd_zip_sublist as ms).cons₂ m

/-- C6: under the alignment invariant, `remove_pdf_embeddings(name)`
deletes exactly the records whose `pdf_name` is `name` (preserving the
relative order and content of the remaining records), rewrites every
remaining record's `embedding_index` to its new position, and is the
identity (a no-op, not an error) when no record has that name. -/
theorem remove_document_correct (db : EmbeddingDatabase) (name : String) (h : StoreInv db) :
    ((remove_pdf_embeddings db name).metadata).map coreOf
        = (db.metadata.filter (fun m => m.pdf_name ≠ name)).map coreOf ∧
    (∀ i (hi : i < (remove_pdf_embeddings db name).metadata.length),
        (((remove_pdf_embeddings db name).metadata)[i]).embedding_index = i) ∧
    ((∀ m ∈ db.metadata, m.pdf_name ≠ name) → remove_pdf_embeddings db name = db) := by
  refine ⟨?_, (storeInv_remove db name).2, ?_⟩
  · simp only [remove_pdf_embeddings]
    rw [coreOf_reindexFrom, kept_map_snd name _ _ h.1]
  · intro hall
    simp only [remove_pdf_embeddings]
    have hfil : (db.embeddings.zip db.metadata).filter (fun p => p.2.pdf_name ≠ name)
        = db.embeddings.zip db.metadata := by
      rw [List.filter_eq_self]
      intro p hp
      simpa using hall p.2 (List.of_mem_zip hp).2
    rw [hfil, List.map_fst_zip _ _ (le_of_eq h.1),
      List.map_snd_zip _ _ (le_of_eq h.1.symm),
      reindexFrom_eq_self db.metadata 0 (fun i hi => by rw [h.2 i hi]; omega)]

/-- Witness for C6 at the spec's example store: documents A (3 chunks)
and B (2 chunks); removing A keeps exactly the two B records, reindexed
to slots 0 and 1. -/
theorem remove_document_correct_wit :
    StoreInv dbAB ∧
    (((remove_pdf_embeddings dbAB "A").metadata).map coreOf
        = (dbAB.metadata.filter (fun m => m.pdf_name ≠ "A")).map coreOf ∧
     (∀ i (hi : i < (remove_pdf_embeddings dbAB "A").metadata.length),
        (((remove_pdf_embeddings dbAB "A").metadata)[i]).embedding_index = i) ∧
     ((∀ m ∈ dbAB.metadata, m.pdf_name ≠ "A") → remove_pdf_embeddings dbAB "A" = dbAB)) :=
  ⟨by decide, remove_document_correct dbAB "A" (by decide)⟩

theorem addChunks_embeddings (name : String) :
    ∀ (cs : List ChunkData) (i : Nat) (db : EmbeddingDatabase),
      (addChunks name i cs db).embeddings = db.embeddings ++ cs.map (fun c => c.embedding)
  | [], _, db => by simp [addChunks]
  | c :: cs, i, db => by
    simp only [addChunks]
    rw [addChunks_embeddings name cs (i + 1)]
    simp

theorem addChunks_metadata (name : String) :
    ∀ (cs : List ChunkData) (i : Nat) (db : EmbeddingDatabase),
      (addChunks name i cs db).metadata
        = db.metadata ++ metasFrom name i db.embeddings.length cs
  | [], _, db => by simp [addChunks, metasFrom]
  | c :: cs, i, db => by
    simp only [addChunks]
    rw [addChunks_metadata name cs (i + 1)]
    simp [metasFrom, List.append_assoc]

theorem mem_metasFrom (name : String) :
    ∀ (cs : List ChunkData) (i e : Nat) (m : MetaRecord),
      m ∈ metasFrom name i e cs → m.pdf_name = name ∧ i ≤ m.chunk_id
  | [], _, _, _, h => absurd h (List.not_mem_nil _)
  | c :: cs, i, e, m, h => by
    rcases List.mem_cons.mp h with rfl | ht
    · exact ⟨rfl, le_refl i⟩
    · have h2 := mem_metasFrom name cs (i + 1) (e + 1) m ht
      exact ⟨h2.1, by omega⟩

theorem nodup_metasFrom_docKey (name : String) :
    ∀ (cs : List ChunkData) (i e : Nat),
      ((metasFrom name i e cs).map docKey).Nodup
  | [], _, _ => List.nodup_nil
  | c :: cs, i, e => by
    simp only [metasFrom, List.map_cons, List.nodup_cons]
    refine ⟨?_, nodup_metasFrom_docKey name cs (i + 1) (e + 1)⟩
    intro hmem
    obtain ⟨m, hm, he⟩ := List.mem_map.mp hmem
    have h2 := (mem_metasFrom name cs (i + 1) (e + 1) m hm).2
    have h3 : m.chunk_id = i := congrArg Prod.snd he
    omega

theorem mem_remove_metadata (db : EmbeddingDatabase) (name : String) :
    ∀ m ∈ (remove_pdf_embeddings db name).metadata, m.pdf_name ≠ name := by
  intro m hm
  have h1 : coreOf m ∈ ((remove_pdf_embeddings db name).metadata).map coreOf :=
    List.mem_map_of_mem coreOf hm
  simp only [remove_pdf_embeddings] at h1
  rw [coreOf_reindexFrom] at h1
  obtain ⟨m2, hm2, he⟩ := List.mem_map.mp h1
  obtain ⟨p, hp, hps⟩ := List.mem_map.mp hm2
  have hpn : p.2.pdf_name ≠ name := by simpa using (List.mem_filter.mp hp).2
  have hf : m.pdf_name = m2.pdf_name := congrArg Prod.fst he.symm
  rw [hf, ← hps]
  exact hpn

/-- C4: replace-on-add: after `add_pdf_embeddings` for a name, the records
with that name are exactly the metadata of the latest call's chunks (with
`chunk_id` 0, 1, ...), the appended vectors are exactly the latest call's
vectors, and the no-duplicate-`(pdf_name, chunk_id)` property is
preserved. -/
theorem add_replaces_document (db : EmbeddingDatabase) (name : String) (cs : List ChunkData)
    (h : DupFree db) :
    (add_pdf_embeddings db name cs).metadata.filter (fun m => m.pdf_name = name)
        = metasFrom name 0 (remove_pdf_embeddings db name).embeddings.length cs ∧
    (add_pdf_embeddings db name cs).embeddings
        = (remove_pdf_embeddings db name).embeddings ++ cs.map (fun c => c.embedding) ∧
    DupFree (add_pdf_embeddings db name cs) := by
  have hmeta : (add_pdf_embeddings db name cs).metadata
      = (remove_pdf_embeddings db name).metadata
        ++ metasFrom name 0 (remove_pdf_embeddings db name).embeddings.length cs :=
    addChunks_metadata name cs 0 _
  refine ⟨?_, addChunks_embeddings name cs 0 _, ?_⟩
  · rw [hmeta, List.filter_append]
    have h1 : (remove_pdf_embeddings db name).metadata.filter
        (fun m => m.pdf_name = name) = [] := by
      rw [List.filter_eq_nil_iff]
      intro m hm
      simpa using mem_remove_metadata db name m hm
    have h2 : (metasFrom name 0 (remove_pdf_embeddings db name).embeddings.length cs).filter
        (fun m => m.pdf_name = name)
        = metasFrom name 0 (remove_pdf_embeddings db name).embeddings.length cs := by
      rw [List.filter_eq_self]
      intro m hm
      simpa using (mem_metasFrom name cs 0 _ m hm).1
    rw [h1, h2, List.nil_append]
  · show ((add_pdf_embeddings db name cs).metadata.map docKey).Nodup
    rw [hmeta, List.map_append, List.nodup_append]
    refine ⟨?_, nodup_metasFrom_docKey name cs 0 _, ?_⟩
    · have hs1 : List.Sublist
          (((db.embeddings.zip db.metadata).filter
            (fun p => p.2.pdf_name ≠ name)).map Prod.snd) db.metadata :=
        ((List.filter_sublist _).map Prod.snd).trans (map_snd_zip_sublist _ _)
      have hsub : List.Sublist ((remove_pdf_embeddings db name).metadata.map docKey)
          (db.metadata.map docKey) := by
        simp only [remove_pdf_embeddings]
        rw [docKey_reindexFrom]
        exact hs1.map docKey
      exact List.Nodup.sublist hsub h
    · intro k hk1 hk2
      obtain ⟨m1, hm1, he1⟩ := List.mem_map.mp hk1
      obtain ⟨m2, hm2, he2⟩ := List.mem_map.mp hk2
      have hn1 : m1.pdf_name ≠ name := mem_remove_metadata db name m1 hm1
      have hn2 : m2.pdf_name = name := (mem_metasFrom name cs 0 _ m2 hm2).1
      have hf : m1.pdf_name = m2.pdf_name := congrArg Prod.fst (he1.trans he2.symm)
      exact hn1 (hf.trans hn2)

/-- Witness for C4: re-adding document A with two fresh chunks to a store
that already holds an A record leaves exactly the two fresh records for
A, with chunk ids 0 and 1. -/
theorem add_replaces_document_wit :
    DupFree dbSingle ∧
    ((add_pdf_embeddings dbSingle "A" [⟨"x", [1, 1], []⟩, ⟨"y", [2, 2], []⟩]).metadata.filter
        (fun m => m.pdf_name = "A")
        = metasFrom "A" 0 (remove_pdf_embeddings dbSingle "A").embeddings.length
            [⟨"x", [1, 1], []⟩, ⟨"y", [2, 2], []⟩] ∧
     (add_pdf_embeddings dbSingle "A" [⟨"x", [1, 1], []⟩, ⟨"y", [2, 2], []⟩]).embeddings
        = (remove_pdf_embeddings dbSingle "A").embeddings
          ++ [(⟨"x", [1, 1], []⟩ : ChunkData), ⟨"y", [2, 2], []⟩].map (fun c => c.embedding) ∧
     DupFree (add_pdf_embeddings dbSingle "A" [⟨"x", [1, 1], []⟩, ⟨"y", [2, 2], []⟩])) :=
  ⟨by decide, add_replaces_document dbSingle "A" _ (by decide)⟩

theorem dot_self_nonneg : ∀ a : List ℚ, 0 ≤ dot a a
  | [] => le_refl 0
  | x :: xs => by
    have h1 := dot_self_nonneg xs
    have h2 := mul_self_nonneg x
    simp only [dot]
    exact add_nonneg h2 h1

theorem dot_eq_zero_of_normSq_eq_zero : ∀ (a b : List ℚ), normSq a = 0 → dot a b = 0
  | [], [], _ => rfl
  | [], _ :: _, _ => rfl
  | _ :: _, [], _ => rfl
  | x :: xs, y :: ys, h => by
    have h1 : x * x + dot xs xs = 0 := by simpa [normSq, dot] using h
    have h2 := dot_self_nonneg xs
    have h3 := mul_self_nonneg x
    have hx : x = 0 := mul_self_eq_zero.mp (by linarith)
    have hxs : normSq xs = 0 := by simp only [normSq]; linarith
    simp [dot, hx, dot_eq_zero_of_normSq_eq_zero xs ys hxs]

theorem dot_comm : ∀ a b : List ℚ, dot a b = dot b a
  | [], [] => rfl
  | [], _ :: _ => rfl
  | _ :: _, [] => rfl
  | x :: xs, y :: ys => by simp [dot, dot_comm xs ys, mul_comm]

/-- C9: a zero-norm side (a stored vector, or the query vector) yields
cosine similarity exactly 0 instead of a division error; the similarity
`search_similar_chunks` computes for every stored vector (see
`candidates`) is this total function. -/
theorem cosineSim_zero_norm (q v : List ℚ) (h : normSq q = 0 ∨ normSq v = 0) :
    cosineSim q v = 0 := by
  have hd : dot q v = 0 := by
    rcases h with h | h
    · exact dot_eq_zero_of_normSq_eq_zero q v h
    · rw [dot_comm]
      exact dot_eq_zero_of_normSq_eq_zero v q h
  simp [cosineSim, hd]

/-- Witness for C9: the zero query vector against a nonzero stored one. -/
theorem cosineSim_zero_norm_wit :
    (normSq [(0 : ℚ), 0] = 0 ∨ normSq [(1 : ℚ), 2] = 0) ∧
    cosineSim [(0 : ℚ), 0] [(1 : ℚ), 2] = 0 :=
  ⟨Or.inl (by norm_num [normSq, dot]),
    cosineSim_zero_norm _ _ (Or.inl (by norm_num [normSq, dot]))⟩

theorem mem_filterGE : ∀ (t : ℝ) (l : List SearchResult) (r : SearchResult),
    r ∈ filterGE t l → t ≤ r.similarity
  | _, [], r, h => absurd h (List.not_mem_nil r)
  | t, x :: xs, r, h => by
    by_cases hx : t ≤ x.similarity
    · rw [filterGE.eq_def] at h
      simp only at h
      rw [if_pos hx] at h
      rcases List.mem_cons.mp h with rfl | ht
      · exact hx
      · exact mem_filterGE t xs r ht
    · rw [filterGE.eq_def] at h
      simp only at h
      rw [if_neg hx] at h
      exact mem_filterGE t xs r h

theorem filterGE_sublist : ∀ (t : ℝ) (l : List SearchResult),
    List.Sublist (filterGE t l) l
  | _, [] => List.Sublist.refl []
  | t, x :: xs => by
    by_cases hx : t ≤ x.similarity
    · rw [filterGE.eq_def]
      simp only
      rw [if_pos hx]
      exact (filterGE_sublist t xs).cons₂ x
    · rw [filterGE.eq_def]
      simp only
      rw [if_neg hx]
      exact (filterGE_sublist t xs).cons x

theorem search_eq (db : EmbeddingDatabase) (q : List ℚ) (k : Nat) (t : ℝ) :
    search_similar_chunks db q k t
      = (List.insertionSort simDescRel (filterGE t (candidates q db))).take k := by
  simp only [search_similar_chunks]
  by_cases he : db.embeddings.isEmpty = true
  · rw [if_pos he]
    have hnil : db.embeddings = [] := List.isEmpty_iff.mp he
    simp [candidates, hnil, filterGE, List.insertionSort]
  · rw [if_neg he]

/-- C2: every record returned by `search_similar_chunks` has similarity
at least `threshold`; none strictly below it is ever returned. -/
theorem search_threshold_sound (db : EmbeddingDatabase) (q : List ℚ) (k : Nat) (t : ℝ)
    (r : SearchResult) (h : r ∈ search_similar_chunks db q k t) : t ≤ r.similarity := by
  rw [search_eq] at h
  have h1 : r ∈ List.insertionSort simDescRel (filterGE t (candidates q db)) :=
    (List.take_sublist k _).subset h
  have h2 : r ∈ filterGE t (candidates q db) :=
    (List.mem_insertionSort simDescRel).mp h1
  exact mem_filterGE t _ r h2

theorem cosineSim_e1 : cosineSim [1, 0] [1, 0] = 1 := by
  have hd : dot [(1 : ℚ), 0] [1, 0] = 1 := by norm_num [dot]
  have hn : normSq [(1 : ℚ), 0] = 1 := by norm_num [normSq, dot]
  simp only [cosineSim]
  rw [hd, hn]
  norm_num

theorem search_dbSingle_eval :
    search_similar_chunks dbSingle [1, 0] 5 (1 / 2) = [resA] := by
  rw [search_eq]
  have hc : candidates [1, 0] dbSingle
      = [{ resA with similarity := cosineSim [1, 0] [1, 0] }] := by
    simp [candidates, dbSingle, resA]
  rw [hc, cosineSim_e1]
  rw [filterGE.eq_def]
  simp only
  rw [if_pos (by norm_num [resA] : (1 / 2 : ℝ) ≤ ({ resA with similarity := (1 : ℝ) } : SearchResult).similarity)]
  rw [filterGE.eq_def]
  simp [List.insertionSort, List.orderedInsert, resA]

/-- Witness for C2: a store with one unit vector queried by the same
vector at threshold 1/2 returns that record, whose similarity 1 is at
least the threshold. -/
theorem search_threshold_sound_wit :
    resA ∈ search_similar_chunks dbSingle [1, 0] 5 (1 / 2) ∧
    (1 / 2 : ℝ) ≤ resA.similarity := by
  have hm : resA ∈ search_similar_chunks dbSingle [1, 0] 5 (1 / 2) := by
    rw [search_dbSingle_eval]
    exact List.mem_singleton.mpr rfl
  exact ⟨hm, search_threshold_sound dbSingle [1, 0] 5 (1 / 2) resA hm⟩

theorem pairwise_tieRel_orderedInsert (x : SearchResult) :
    ∀ (l : List SearchResult), List.Sorted simDescRel l → l.Pairwise tieRel →
      (∀ b ∈ l, x.metadata.embedding_index < b.metadata.embedding_index) →
      (List.orderedInsert simDescRel x l).Pairwise tieRel
  | [], _, _, _ => List.pairwise_singleton tieRel x
  | y :: ys, hs, hp, hidx => by
    by_cases hxy : simDescRel x y
    · rw [List.orderedInsert, if_pos hxy]
      refine List.Pairwise.cons ?_ hp
      intro b hb
      have hby : b.similarity ≤ y.similarity := by
        rcases List.mem_cons.mp hb with rfl | hbys
        · exact le_refl b.similarity
        · exact List.rel_of_sorted_cons hs b hbys
      have hbx : b.similarity ≤ x.similarity := le_trans hby hxy
      rcases lt_or_eq_of_le hbx with hlt | heq
      · exact Or.inl hlt
      · exact Or.inr ⟨heq.symm, hidx b hb⟩
    · rw [List.orderedInsert, if_neg hxy]
      have hys : List.Sorted simDescRel ys := hs.of_cons
      have hpy : ys.Pairwise tieRel := hp.of_cons
      have hidx2 : ∀ b ∈ ys, x.metadata.embedding_index < b.metadata.embedding_index :=
        fun b hb => hidx b (List.mem_cons_of_mem y hb)
      refine List.Pairwise.cons ?_ (pairwise_tieRel_orderedInsert x ys hys hpy hidx2)
      intro b hb
      rcases (List.mem_orderedInsert simDescRel).mp hb with rfl | hbys
      · exact Or.inl (not_le.mp hxy)
      · exact List.rel_of_pairwise_cons hp hbys

theorem pairwise_tieRel_insertionSort :
    ∀ (l : List SearchResult), l.Pairwise idxLT →
      (List.insertionSort simDescRel l).Pairwise tieRel
  | [], _ => List.Pairwise.nil
  | x :: xs, hp => by
    have hidx : ∀ b ∈ List.insertionSort simDescRel xs,
        x.metadata.embedding_index < b.metadata.embedding_index := by
      intro b hb
      exact List.rel_of_pairwise_cons hp ((List.mem_insertionSort simDescRel).mp hb)
    exact pairwise_tieRel_orderedInsert x _ (List.sorted_insertionSort simDescRel xs)
      (pairwise_tieRel_insertionSort xs hp.of_cons) hidx

theorem candidates_pairwise_idxLT (q : List ℚ) (db : EmbeddingDatabase) (h : StoreInv db) :
    (candidates q db).Pairwise idxLT := by
  have hm : db.metadata.Pairwise (fun a b => a.embedding_index < b.embedding_index) := by
    rw [List.pairwise_iff_getElem]
    intro i j hi hj hij
    rw [h.2 i hi, h.2 j hj]
    exact hij
  have hsnd : ((db.embeddings.zip db.metadata).map Prod.snd).Pairwise
      (fun a b => a.embedding_index < b.embedding_index) :=
    hm.sublist (map_snd_zip_sublist db.embeddings db.metadata)
  have hz := List.pairwise_map.mp hsnd
  rw [candidates, List.pairwise_map]
  exact hz

/-- C1: under the alignment invariant, the result of
`search_similar_chunks` is sorted in strictly descending similarity with
ties in ascending `embedding_index` (slot order), has exactly
`min top_k n` entries where `n` counts the records passing the threshold
(so at most `top_k`, and exactly `top_k` whenever at least `top_k`
records pass), is drawn from the records passing the threshold, and any
passing record it leaves out scores no higher than any record it
returns: it is the list of the `top_k` highest-scoring passing records. -/
theorem search_ranked_topk (db : EmbeddingDatabase) (q : List ℚ) (k : Nat) (t : ℝ)
    (h : StoreInv db) :
    (search_similar_chunks db q k t).Pairwise tieRel ∧
    (search_similar_chunks db q k t).length = min k (filterGE t (candidates q db)).length ∧
    (search_similar_chunks db q k t).length ≤ k ∧
    List.Subperm (search_similar_chunks db q k t) (filterGE t (candidates q db)) ∧
    (∀ y ∈ filterGE t (candidates q db), y ∉ search_similar_chunks db q k t →
      ∀ x ∈ search_similar_chunks db q k t, y.similarity ≤ x.similarity) := by
  have hpf : (filterGE t (candidates q db)).Pairwise idxLT :=
    (candidates_pairwise_idxLT q db h).sublist (filterGE_sublist t _)
  have hps : (List.insertionSort simDescRel (filterGE t (candidates q db))).Pairwise tieRel :=
    pairwise_tieRel_insertionSort _ hpf
  have hss : List.Sorted simDescRel
      (List.insertionSort simDescRel (filterGE t (candidates q db))) :=
    List.sorted_insertionSort simDescRel _
  refine ⟨?_, ?_, ?_, ?_, ?_⟩
  · rw [search_eq]
    exact hps.sublist (List.take_sublist k _)
  · rw [search_eq, List.length_take, List.length_insertionSort]
  · rw [search_eq]
    exact List.length_take_le k _
  · rw [search_eq]
    exact ((List.take_sublist k _).subperm).trans
      (List.perm_insertionSort simDescRel _).subperm
  · intro y hy hyn x hx
    rw [search_eq] at hyn hx
    have hy2 : y ∈ List.insertionSort simDescRel (filterGE t (candidates q db)) :=
      (List.mem_insertionSort simDescRel).mpr hy
    have hy3 : y ∈ List.take k (List.insertionSort simDescRel (filterGE t (candidates q db)))
        ++ List.drop k (List.insertionSort simDescRel (filterGE t (candidates q db))) := by
      rw [List.take_append_drop]
      exact hy2
    have hyd : y ∈ List.drop k (List.insertionSort simDescRel (filterGE t (candidates q db))) := by
      rcases List.mem_append.mp hy3 with h1 | h2
      · exact absurd h1 hyn
      · exact h2
    exact hss.rel_of_mem_take_of_mem_drop hx hyd

/-- Witness for C1 at a two-record store with `top_k` 1 and threshold 0. -/
theorem search_ranked_topk_wit :
    StoreInv dbPair ∧
    ((search_similar_chunks dbPair [1, 0] 1 0).Pairwise tieRel ∧
     (search_similar_chunks dbPair [1, 0] 1 0).length
        = min 1 (filterGE 0 (candidates [1, 0] dbPair)).length ∧
     (search_similar_chunks dbPair [1, 0] 1 0).length ≤ 1 ∧
     List.Subperm (search_similar_chunks dbPair [1, 0] 1 0)
       (filterGE 0 (candidates [1, 0] dbPair)) ∧
     (∀ y ∈ filterGE 0 (candidates [1, 0] dbPair),
        y ∉ search_similar_chunks dbPair [1, 0] 1 0 →
        ∀ x ∈ search_similar_chunks dbPair [1, 0] 1 0, y.similarity ≤ x.similarity)) :=
  ⟨by decide, search_ranked_topk dbPair [1, 0] 1 0 (by decide)⟩
